import Mathlib

/-!
Verification of the spreadsheet ingestion-and-normalization pipeline of
`src/dataUtils.ts` (the ERP dashboard repository).  The TypeScript source is
shallowly embedded: JavaScript strings become `String` (manipulated through
their `List Char` data, restricted to the ASCII range the data uses),
JavaScript `null`/`undefined` become `Option`, `Date` values become explicit
calendar dates plus integer millisecond timestamps, and the `date-fns`
library calls (`parse`, `isValid`, `isFuture`, `isBefore`, `startOfToday`,
`compareAsc`) are modelled by executable definitions following the library's
documented en-US semantics for the constructs the source uses.
-/

namespace ERP

/-! ### JavaScript string primitives (ASCII fragment used by the data) -/

/-- ASCII lower-casing of a character, the fragment of JavaScript
`String.prototype.toLowerCase` exercised by the source data. -/
def toLowerChar (c : Char) : Char :=
  if 'A' ≤ c ∧ c ≤ 'Z' then Char.ofNat (c.toNat + 32) else c

/-- JavaScript `toLowerCase` on a whole string. -/
def jsToLower (s : String) : String := ⟨s.data.map toLowerChar⟩

/-- Whitespace recognised by `String.prototype.trim` (ASCII subset). -/
def isWsChar (c : Char) : Bool := c = ' ' || c = '\t' || c = '\n' || c = '\r'

/-- JavaScript `trim`: strip whitespace from both ends. -/
def jsTrim (s : String) : String :=
  ⟨((s.data.dropWhile isWsChar).reverse.dropWhile isWsChar).reverse⟩

/-- Helper for substring search: does `needle` occur inside `hay`? -/
def containsSubAux (needle : List Char) : List Char → Bool
  | [] => needle.isEmpty
  | c :: rest => needle.isPrefixOf (c :: rest) || containsSubAux needle rest

/-- JavaScript `hay.includes(needle)`. -/
def jsIncludes (hay needle : String) : Bool := containsSubAux needle.data hay.data

/-- Is the character a lowercase ASCII letter or a digit? -/
def isLowerAlnum (c : Char) : Bool :=
  ('a' ≤ c && c ≤ 'z') || ('0' ≤ c && c ≤ '9')

/-- `normalize` of dataUtils.ts line 88: lowercase, then strip every character
outside `[a-z0-9]`. -/
def normalize (s : String) : String :=
  ⟨(s.data.map toLowerChar).filter isLowerAlnum⟩

/-- JavaScript `a || b` for a possibly-missing string `a` with string default:
the default is taken when `a` is `undefined` or the empty string (falsy). -/
def jsOrStr (a : Option String) (b : String) : String :=
  match a with
  | some s => if s = "" then b else s
  | none => b

/-- JavaScript `a || b` when the fallback may itself be missing. -/
def jsOrOpt (a b : Option String) : Option String :=
  match a with
  | some s => if s = "" then b else some s
  | none => b

/-- JavaScript falsiness of a possibly-missing string. -/
def jsFalsyS : Option String → Bool
  | none => true
  | some s => s == ""

/-! ### Column resolution (dataUtils.ts lines 88-103, 124-138) -/

/-- The match test inside `findColumnKey`: the normalized header equals or
contains the normalized candidate. -/
def headerMatches (h candidate : String) : Bool :=
  normalize h == normalize candidate || jsIncludes (normalize h) (normalize candidate)

/-- `findColumnKey` of dataUtils.ts lines 90-103: for each candidate in order,
accept the first header whose normalized form equals or contains the
normalized candidate. -/
def findColumnKey (headers candidates : List String) : Option String :=
  if headers.isEmpty then none
  else candidates.findSome? (fun candidate => headers.find? (fun h => headerMatches h candidate))

def descCandidates : List String :=
  ["Work Breakdown Structure Task Description", "Task Description", "Description", "Task"]

def statusCandidates : List String := ["Current Status", "Status"]

def dateCandidates : List String := ["EDD at Site", "EDD", "Target Date", "Deadline", "Date"]

/-- `descKey` resolution (line 124): synonym search, else the first header;
the result can still be missing when the header list is empty. -/
def resolveDescKey (headers : List String) : Option String :=
  jsOrOpt (findColumnKey headers descCandidates) headers[0]?

/-- `statusKey` resolution (line 125): synonym search, else the literal
header name `Status`. -/
def resolveStatusKey (headers : List String) : String :=
  jsOrStr (findColumnKey headers statusCandidates) "Status"

/-- `dateKey` resolution (lines 128-138): prefer the 24th header (index 23)
when it is truthy and its normalized form contains `edd`; otherwise run the
synonym search; if that yields nothing and the 24th header is truthy, use it
as the last-resort default. -/
def resolveDateKey (headers : List String) : Option String :=
  let colXHeader := headers[23]?
  let preferColX : Bool :=
    match colXHeader with
    | some h => !(h == "") && jsIncludes (normalize h) "edd"
    | none => false
  let dateKey := if preferColX then colXHeader else findColumnKey headers dateCandidates
  if jsFalsyS dateKey && !(jsFalsyS colXHeader) then colXHeader else dateKey

/-! ### Department classification (dataUtils.ts lines 41-59) -/

inductive Department where
  | hrPayroll
  | finance
  | procurement
  | inventoryStores
  | equipmentWorkshop
  | projectsSales
  | setupAdmin
  | general
deriving DecidableEq, Repr

/-- The `KEYWORDS` table, in its declared (object-literal) order. -/
def KEYWORDS : List (Department × List String) :=
  [ (.hrPayroll, ["employee", "payroll", "leave", "salary", "wps", "recruit", "candidate", "personnel", "hr"]),
    (.finance, ["finance", "account", "payment", "voucher", "ledger", "asset", "bank", "tax", "p&l", "balance", "audit"]),
    (.procurement, ["purchase", "supplier", "lpo", "quotation", "procurement", "vendor"]),
    (.inventoryStores, ["stock", "inventory", "material", "store", "warehouse", "item"]),
    (.equipmentWorkshop, ["equipment", "workshop", "vehicle", "service", "maintenance", "repair", "machinery"]),
    (.projectsSales, ["project", "boq", "job", "costing", "estimate", "tender", "sales", "crm", "contract"]),
    (.setupAdmin, ["srs", "database", "master", "installation", "setup", "admin", "user", "role", "configuration", "meeting", "kickoff"]) ]

/-- `determineDepartment` (lines 51-59): scan the keyword table in declared
order and return the first department any of whose keywords occurs in the
lowercased description; `General` when none matches. -/
def determineDepartment (desc : String) : Department :=
  let lowerDesc := jsToLower desc
  match KEYWORDS.find? (fun p => p.2.any (fun word => jsIncludes lowerDesc word)) with
  | some p => p.1
  | none => .general

/-! ### Calendar dates and the clock -/

/-- A calendar date (proleptic Gregorian), the payload of a JavaScript `Date`
produced by the pipeline (all such dates sit at local midnight). -/
structure CalDate where
  year : Int
  month : Nat
  day : Nat
deriving DecidableEq, Repr

def isLeapYear (y : Int) : Bool :=
  y % 400 == 0 || (y % 4 == 0 && y % 100 != 0)

def daysInMonthTable : List Nat := [31, 28, 31, 30, 31, 30, 31, 31, 30, 31, 30, 31]

def daysInMonth (y : Int) (m : Nat) : Nat :=
  if m = 2 ∧ isLeapYear y then 29 else daysInMonthTable.getD (m - 1) 31

/-- Day number of a civil date counted from 1970-01-01 (standard
`days_from_civil` computation). -/
def daysFromCivil (cd : CalDate) : Int :=
  let y : Int := if cd.month ≤ 2 then cd.year - 1 else cd.year
  let era : Int := y.fdiv 400
  let yoe : Int := y - era * 400
  let mp : Int := if 2 < cd.month then (cd.month : Int) - 3 else (cd.month : Int) + 9
  let doy : Int := (153 * mp + 2).fdiv 5 + (cd.day : Int) - 1
  let doe : Int := yoe * 365 + yoe.fdiv 4 - yoe.fdiv 100 + doy
  era * 146097 + doe - 719468

def dayMs : Int := 86400000

/-- Millisecond timestamp of a calendar date at local midnight. -/
def msOfDate (cd : CalDate) : Int := dayMs * daysFromCivil cd

/-- The run's clock: the current calendar day together with the current
millisecond instant (`new Date()` / `Date.now()` during the run). -/
structure Clock where
  today : CalDate
  nowMs : Int
deriving DecidableEq, Repr

/-- date-fns `startOfToday()`: midnight at the start of the current day. -/
def startOfToday (c : Clock) : Int := msOfDate c.today

/-! ### Date parsing (dataUtils.ts lines 61-85)

The source calls date-fns `parse(cleanStr, fmt, new Date())` followed by
`isValid`, then falls back to the JavaScript `Date` constructor.  The model
below follows date-fns v2 en-US semantics for the token classes appearing in
the source's format list: numeric tokens match one up to `width` leading
digits greedily; `MMM`/`MMMM` match a month-name prefix case-insensitively;
literal characters must match exactly; trailing unmatched input invalidates
the parse; the day of month is validated against the actual (leap-aware)
month length; a two-digit year is normalized around the reference year; and
fields absent from the format default from the reference date with the time
of day reset to midnight. -/

inductive FToken where
  | dayTok
  | monthNum
  | monthAbbr
  | monthWide
  | yearTwo
  | yearFour
  | lit (c : Char)
deriving DecidableEq, Repr

/-- Token corresponding to a run of `k` copies of the format letter `c`
(the widths used by the source's format list). -/
def runTokenOf (c : Char) (k : Nat) : FToken :=
  if c = 'd' then FToken.dayTok
  else if c = 'M' then
    (if k ≤ 2 then FToken.monthNum else if k = 3 then FToken.monthAbbr else FToken.monthWide)
  else (if k = 2 then FToken.yearTwo else FToken.yearFour)

/-- Emit the token for a pending letter run, if any. -/
def flushRun : Option (Char × Nat) → List FToken
  | none => []
  | some p => [runTokenOf p.1 p.2]

/-- Tokenizer worker: walk the format characters keeping the current run of
`d`/`M`/`y` letters pending. -/
def tokenizeAux (pending : Option (Char × Nat)) : List Char → List FToken
  | [] => flushRun pending
  | c :: rest =>
    if c = 'd' ∨ c = 'M' ∨ c = 'y' then
      match pending with
      | some p =>
        if p.1 = c then tokenizeAux (some (p.1, p.2 + 1)) rest
        else flushRun (some p) ++ tokenizeAux (some (c, 1)) rest
      | none => tokenizeAux (some (c, 1)) rest
    else flushRun pending ++ (FToken.lit c :: tokenizeAux none rest)

/-- Split a date-fns format string into tokens.  Runs of `d`, `M`, `y` map to
the token classes used by the source's format list. -/
def tokenizeFmt (l : List Char) : List FToken := tokenizeAux none l

/-- Greedily consume between one and `n` leading decimal digits, returning
their value and the rest of the input (the date-fns `parseNDigits` regexes). -/
def takeDigitsUpTo (n : Nat) (cs : List Char) : Option (Nat × List Char) :=
  let ds := (cs.takeWhile Char.isDigit).take n
  if ds.length = 0 then none
  else some (ds.foldl (fun acc c => acc * 10 + (c.toNat - 48)) 0, cs.drop ds.length)

def monthAbbrevs : List (List Char) :=
  (["jan", "feb", "mar", "apr", "may", "jun", "jul", "aug", "sep", "oct", "nov", "dec"]).map String.data

def monthWides : List (List Char) :=
  (["january", "february", "march", "april", "may", "june", "july", "august",
    "september", "october", "november", "december"]).map String.data

/-- Find the first name that is a prefix of the (already lowercased) input,
returning its index and length. -/
def findPrefixIdxAux (names : List (List Char)) (lowered : List Char) (i : Nat) :
    Option (Nat × Nat) :=
  match names with
  | [] => none
  | n :: ns => if n.isPrefixOf lowered then some (i, n.length) else findPrefixIdxAux ns lowered (i + 1)

/-- Parser state while consuming tokens: remaining input and the numeric
fields gathered so far (`year` also records whether the token was `yy`). -/
structure ParseAcc where
  rest : List Char
  yearF : Option (Nat × Bool)
  monthF : Option Nat
  dayF : Option Nat

/-- Run one format token against the state (field validation is deferred to
the end, mirroring the priority-ordered validate/set pass of date-fns). -/
def runTok (acc : ParseAcc) (t : FToken) : Option ParseAcc :=
  match t with
  | .dayTok =>
    (takeDigitsUpTo 2 acc.rest).map (fun p => { acc with rest := p.2, dayF := some p.1 })
  | .monthNum =>
    (takeDigitsUpTo 2 acc.rest).map (fun p => { acc with rest := p.2, monthF := some p.1 })
  | .monthAbbr =>
    match findPrefixIdxAux monthAbbrevs (acc.rest.map toLowerChar) 0 with
    | some p => some { acc with rest := acc.rest.drop p.2, monthF := some (p.1 + 1) }
    | none => none
  | .monthWide =>
    match findPrefixIdxAux monthWides (acc.rest.map toLowerChar) 0 with
    | some p => some { acc with rest := acc.rest.drop p.2, monthF := some (p.1 + 1) }
    | none => none
  | .yearTwo =>
    (takeDigitsUpTo 2 acc.rest).map (fun p => { acc with rest := p.2, yearF := some (p.1, true) })
  | .yearFour =>
    (takeDigitsUpTo 4 acc.rest).map (fun p => { acc with rest := p.2, yearF := some (p.1, false) })
  | .lit c =>
    match acc.rest with
    | x :: r => if x = c then some { acc with rest := r } else none
    | [] => none

/-- date-fns `normalizeTwoDigitYear`: place a two-digit year in the century
window ending fifty years after the reference year. -/
def normalizeTwoDigitYear (twoDigitYear : Nat) (currentYear : Int) : Int :=
  let isCommonEra := 0 < currentYear
  let absCurrentYear : Nat := currentYear.natAbs
  let rangeEnd : Nat := absCurrentYear + 50
  let rangeEndCentury : Nat := (rangeEnd / 100) * 100
  let isPreviousCentury : Bool := decide (rangeEnd % 100 ≤ twoDigitYear)
  let result : Int := ((twoDigitYear + rangeEndCentury : Nat) : Int) - (if isPreviousCentury then 100 else 0)
  if isCommonEra then result else 1 - result

/-- Model of date-fns `parse(s, fmt, referenceDate)` followed by `isValid`,
for the formats in the source's list.  Fields not present in the format
default from the reference date (the clock); time of day resets to midnight. -/
def dfnsParse (clock : Clock) (fmt s : String) : Option CalDate :=
  match (tokenizeFmt fmt.data).foldlM runTok ⟨s.data, none, none, none⟩ with
  | none => none
  | some acc =>
    if acc.rest ≠ [] then none
    else
      let yr : Int :=
        match acc.yearF with
        | some (v, true) => normalizeTwoDigitYear v clock.today.year
        | some (v, false) => (v : Int)
        | none => clock.today.year
      let fourDigitNonPositive : Bool :=
        match acc.yearF with
        | some (v, false) => decide (v = 0)
        | _ => false
      if fourDigitNonPositive then none
      else
        let mo := acc.monthF.getD clock.today.month
        let dy := acc.dayF.getD clock.today.day
        if 1 ≤ mo ∧ mo ≤ 12 then
          if 1 ≤ dy ∧ dy ≤ daysInMonth yr mo then some ⟨yr, mo, dy⟩ else none
        else none

/-- Modelled from the spec and the ECMAScript standard: the general-purpose
date-text interpreter `new Date(string)` used as the source's fallback (line
81).  The standard-mandated `YYYY-MM-DD` profile is modelled, with the
day-of-month validated as the major engines do; host-specific heuristic
formats outside that profile are modelled as not parsing. -/
def jsNewDate (s : String) : Option CalDate :=
  match s.data with
  | [y1, y2, y3, y4, h1, m1, m2, h2, d1, d2] =>
    if h1 = '-' ∧ h2 = '-' ∧ ([y1, y2, y3, y4, m1, m2, d1, d2]).all Char.isDigit then
      let num : List Char → Nat := fun l => l.foldl (fun acc c => acc * 10 + (c.toNat - 48)) 0
      let y := num [y1, y2, y3, y4]
      let m := num [m1, m2]
      let d := num [d1, d2]
      if 1 ≤ m ∧ m ≤ 12 ∧ 1 ≤ d ∧ d ≤ daysInMonth (y : Int) m then
        some ⟨(y : Int), m, d⟩
      else none
    else none
  | _ => none

/-- The format list of dataUtils.ts lines 67-73, in declared order. -/
def formats : List String :=
  ["d-MMM-yy", "dd-MMM-yy", "d-MMM-yyyy", "dd-MMM-yyyy",
   "dd/MM/yyyy", "d/M/yyyy", "MM/dd/yyyy", "M/d/yyyy",
   "yyyy-MM-dd",
   "d MMM yyyy", "d MMMM yyyy",
   "MMM d, yyyy"]

/-- `parseDate` (lines 61-85): reject empty input, trim, try each format in
order accepting the first valid parse, then fall back to the JavaScript date
interpreter, and yield nothing when everything fails.  Totality of this
function models the source's guarantee that no exception escapes. -/
def parseDate (clock : Clock) (dateStr : String) : Option CalDate :=
  if dateStr = "" then none
  else
    let cleanStr := jsTrim dateStr
    if cleanStr = "" then none
    else
      match formats.findSome? (fun fmt => dfnsParse clock fmt cleanStr) with
      | some d => some d
      | none => jsNewDate cleanStr

/-! ### Records, tasks and the normalizer (dataUtils.ts lines 4-12, 140-166) -/

/-- A parsed CSV row: the ordered association of header name to cell text
(Papa Parse `header: true` output).  `Object.values` is the value column of
this list in order. -/
abbrev RawRecord := List (String × String)

/-- JavaScript property read `row[key]` on a parsed row. -/
def rowGet (row : RawRecord) (key : String) : Option String :=
  (List.find? (fun p => p.1 == key) row).map Prod.snd

inductive Status where
  | Done
  | Pending
  | InProgress
deriving DecidableEq, Repr

structure Task where
  id : String
  description : String
  status : Status
  date : String
  parsedDate : Option CalDate
  department : Department
  raw : RawRecord
deriving DecidableEq

/-- The per-row mapping of `fetchAndProcessData` (lines 140-166).  A missing
`descKey`/`dateKey` reads property `undefined`, as the JavaScript string
coercion of the key does. -/
def normalizeRow (clock : Clock) (descKey : Option String) (statusKey : String)
    (dateKey : Option String) (index : Nat) (row : RawRecord) : Task :=
  let description := jsOrStr (rowGet row (descKey.getD "undefined")) "Untitled Task"
  let statusRaw := jsOrStr (rowGet row statusKey) "Pending"
  let rowValues := row.map Prod.snd
  let dateRaw0 := jsOrStr (rowGet row (dateKey.getD "undefined")) ""
  let dateRaw := if dateRaw0 = "" ∧ 23 < rowValues.length then rowValues.getD 23 dateRaw0 else dateRaw0
  let isDone := jsIncludes (jsToLower statusRaw) "done" || jsIncludes (jsToLower statusRaw) "completed"
  let status := if isDone then Status.Done else Status.Pending
  { id := "task-" ++ toString index
    description := description
    status := status
    date := dateRaw
    parsedDate := parseDate clock dateRaw
    department := determineDepartment description
    raw := row }

/-! ### Aggregation (dataUtils.ts lines 168-217) -/

structure DepartmentStats where
  name : Department
  totalTasks : Nat
  completedTasks : Nat
  percentage : Int
  nextDeadline : Option CalDate
  overdueCount : Nat

structure DashboardData where
  tasks : List Task
  departmentStats : List DepartmentStats
  overallProgress : Int

/-- JavaScript `Math.round` on an exact rational (ties round up). -/
def jsRound (q : ℚ) : Int := ⌊q + 1 / 2⌋

/-- The department list seeding `deptMap`: the keyword-table keys in order,
then `General` (lines 170-171). -/
def allDepts : List Department := KEYWORDS.map Prod.fst ++ [.general]

/-- One step of the task-grouping fold (lines 174-177).  The source appends
the task to the bucket stored under its department; every department bucket
is pre-seeded, so the by-key update below is exhaustive. -/
def updateDeptMap (acc : List (Department × List Task)) (t : Task) :
    List (Department × List Task) :=
  acc.map (fun p => if p.1 = t.department then (p.1, p.2 ++ [t]) else p)

/-- Sort key of the future-task sort (`compareAsc(a.parsedDate!, b.parsedDate!)`,
line 191); the non-null assertion is modelled by a default that the filter
guarantees unreachable. -/
def futureKey (t : Task) : Int := msOfDate (t.parsedDate.getD ⟨1970, 1, 1⟩)

/-- Filter for upcoming tasks (line 190): not Done, with a parsed date lying
strictly after the current instant (`isFuture`). -/
def isUpcoming (clock : Clock) (t : Task) : Bool :=
  decide (t.status ≠ Status.Done) &&
    (match t.parsedDate with
     | some d => decide (clock.nowMs < msOfDate d)
     | none => false)

/-- Filter for overdue tasks (lines 194-198): not Done, with a parsed date
strictly before the start of today (`isBefore(.., startOfToday())`). -/
def isOverdueT (clock : Clock) (t : Task) : Bool :=
  decide (t.status ≠ Status.Done) &&
    (match t.parsedDate with
     | some d => decide (msOfDate d < startOfToday clock)
     | none => false)

/-- Per-department statistics (lines 181-207). -/
def statsOf (clock : Clock) (name : Department) (deptTasks : List Task) : DepartmentStats :=
  let total := deptTasks.length
  let completed := (deptTasks.filter (fun t => decide (t.status = Status.Done))).length
  let percentage : Int := if total = 0 then 0 else jsRound ((completed : ℚ) / (total : ℚ) * 100)
  let futureTasks :=
    (deptTasks.filter (isUpcoming clock)).mergeSort (fun a b => decide (futureKey a ≤ futureKey b))
  { name := name
    totalTasks := total
    completedTasks := completed
    percentage := percentage
    nextDeadline := futureTasks.head?.bind Task.parsedDate
    overdueCount := (deptTasks.filter (isOverdueT clock)).length }

/-- The pipeline from parsed CSV (header list plus rows) to the dashboard
artifact: the `complete` callback of lines 116-217.  The fetch and the CSV
parse itself are the external collaborators delivering `headers` and `rows`. -/
def processData (clock : Clock) (headers : List String) (rows : List RawRecord) : DashboardData :=
  if rows.length = 0 then ⟨[], [], 0⟩
  else
    let descKey := resolveDescKey headers
    let statusKey := resolveStatusKey headers
    let dateKey := resolveDateKey headers
    let tasks := rows.enum.map (fun p => normalizeRow clock descKey statusKey dateKey p.1 p.2)
    let deptMap := tasks.foldl updateDeptMap (allDepts.map (fun d => (d, [])))
    let departmentStats := deptMap.filterMap (fun p =>
      if p.2.length = 0 ∧ p.1 = Department.general then none
      else some (statsOf clock p.1 p.2))
    let totalAll := tasks.length
    let completedAll := (tasks.filter (fun t => decide (t.status = Status.Done))).length
    { tasks := tasks
      departmentStats := departmentStats.filter (fun d => 0 < d.totalTasks)
      overallProgress := if totalAll = 0 then 0 else jsRound ((completedAll : ℚ) / (totalAll : ℚ) * 100) }

/-! ### Concrete inputs used for scenario checks and witnesses -/

/-- A fixed run clock: 2026-10-11, ten hours into the day. -/
def testClock : Clock := ⟨⟨2026, 10, 11⟩, msOfDate ⟨2026, 10, 11⟩ + 36000000⟩

def c1Headers : List String := ["Task", "Status", "EDD"]

/-- The spec's scenario row with an invalid calendar date. -/
def c1Row : RawRecord :=
  [("Task", "Tender for new warehouse racks"), ("Status", ""), ("EDD", "2024-02-30")]

/-- A row with exactly 24 values whose resolved date cell is empty while the
24th positional value is not. -/
def c8Row : RawRecord :=
  [("Task", "alpha"), ("Status", "x"), ("EDD", "")]
    ++ (List.range 20).map (fun i => ("k" ++ toString i, "")) ++ [("z", "X")]

/-- Twenty-four headers whose 24th entry is the only date-like one. -/
def c3Headers : List String := (List.range 23).map (fun i => "c" ++ toString i) ++ ["EDD"]

/-- Four payroll rows: one future deadline, one overdue, two done. -/
def hrRows : List RawRecord :=
  [ [("Task", "payroll a"), ("Status", "Done"), ("EDD", "10-Oct-26")],
    [("Task", "payroll b"), ("Status", ""), ("EDD", "10-Oct-26")],
    [("Task", "payroll c"), ("Status", "pending"), ("EDD", "15-Nov-26")],
    [("Task", "payroll d"), ("Status", "completed!"), ("EDD", "")] ]

/-- The HR department statistics entry produced from `hrRows`. -/
def hrStat : DepartmentStats :=
  statsOf testClock Department.hrPayroll
    ((processData testClock c1Headers hrRows).tasks.filter
      (fun t => decide (t.department = Department.hrPayroll)))

/-- The Inventory & Stores statistics entry produced from the C1 scenario row. -/
def invStat : DepartmentStats :=
  statsOf testClock Department.inventoryStores
    ((processData testClock c1Headers [c1Row]).tasks.filter
      (fun t => decide (t.department = Department.inventoryStores)))

end ERP

namespace ERP

/-! ### General list lemmas used by the claim proofs -/

theorem findSome?_eq_of_first {α β : Type} (l : List α) (f : α → Option β) (i : Nat) (a : α) (b : β)
    (ha : l[i]? = some a)
    (hprev : ∀ j c, j < i → l[j]? = some c → f c = none)
    (hfa : f a = some b) :
    l.findSome? f = some b := by
  induction l generalizing i with
  | nil => simp at ha
  | cons x xs ih =>
    cases i with
    | zero =>
      simp only [List.getElem?_cons_zero, Option.some.injEq] at ha
      subst ha
      simp [List.findSome?_cons, hfa]
    | succ n =>
      have hx : f x = none := hprev 0 x (Nat.succ_pos n) (by simp)
      rw [List.findSome?_cons, hx]
      exact ih n (by simpa using ha)
        (fun j c hj hg => hprev (j + 1) c (by omega) (by simpa using hg))

theorem findSome?_eq_none_of_all {α β : Type} (l : List α) (f : α → Option β)
    (h : ∀ a ∈ l, f a = none) : l.findSome? f = none := by
  induction l with
  | nil => rfl
  | cons x xs ih =>
    rw [List.findSome?_cons, h x (by simp)]
    exact ih (fun a ha => h a (by simp [ha]))

theorem findSome?_congr {α β : Type} (l : List α) (f g : α → Option β)
    (h : ∀ a ∈ l, f a = g a) : l.findSome? f = l.findSome? g := by
  induction l with
  | nil => rfl
  | cons x xs ih =>
    rw [List.findSome?_cons, List.findSome?_cons, h x (by simp)]
    cases g x with
    | none => exact ih (fun a ha => h a (by simp [ha]))
    | some b => rfl

theorem find?_congr_of_perm {α : Type} [DecidableEq α] (p : α → Bool) (l l2 : List α)
    (hperm : l.Perm l2)
    (huniq : ∀ a ∈ l, ∀ b ∈ l, p a = true → p b = true → a = b) :
    l.find? p = l2.find? p := by
  cases hfind : l.find? p with
  | none =>
    have hall := List.find?_eq_none.mp hfind
    exact (List.find?_eq_none.mpr (fun x hx => hall x (hperm.mem_iff.mpr hx))).symm
  | some a =>
    have hpa : p a = true := List.find?_some hfind
    have hmema : a ∈ l := List.mem_of_find?_eq_some hfind
    cases hfind2 : l2.find? p with
    | none =>
      exact absurd hpa (List.find?_eq_none.mp hfind2 a (hperm.mem_iff.mp hmema))
    | some b =>
      have hpb : p b = true := List.find?_some hfind2
      have hmemb : b ∈ l := hperm.mem_iff.mpr (List.mem_of_find?_eq_some hfind2)
      exact congrArg some (huniq a hmema b hmemb hpa hpb)

theorem sum_map_add_nat {α : Type} (l : List α) (f g : α → Nat) :
    (l.map (fun x => f x + g x)).sum = (l.map f).sum + (l.map g).sum := by
  induction l with
  | nil => rfl
  | cons x xs ih => simp only [List.map_cons, List.sum_cons, ih]; omega

theorem sum_ite_not_mem {α : Type} [DecidableEq α] (ds : List α) (x : α) (hx : x ∉ ds) :
    (ds.map (fun d => if x = d then 1 else 0)).sum = 0 := by
  induction ds with
  | nil => rfl
  | cons d ds ih =>
    have hxd : x ≠ d := fun h => hx (h ▸ List.mem_cons_self d ds)
    simp only [List.map_cons, List.sum_cons, if_neg hxd, Nat.zero_add]
    exact ih (fun h => hx (List.mem_cons_of_mem d h))

theorem sum_ite_mem_one {α : Type} [DecidableEq α] (ds : List α) (x : α)
    (hnd : ds.Nodup) (hx : x ∈ ds) :
    (ds.map (fun d => if x = d then 1 else 0)).sum = 1 := by
  induction ds with
  | nil => simp at hx
  | cons d ds ih =>
    rcases List.mem_cons.mp hx with h | h
    · subst h
      simp only [List.map_cons, List.sum_cons, if_pos rfl]
      rw [sum_ite_not_mem ds x (List.nodup_cons.mp hnd).1]
      simp
    · have hxd : x ≠ d := fun he => (List.nodup_cons.mp hnd).1 (he ▸ h)
      simp only [List.map_cons, List.sum_cons, if_neg hxd, Nat.zero_add]
      exact ih (List.nodup_cons.mp hnd).2 h

theorem sum_length_filter_eq {α β : Type} [DecidableEq β] (key : α → β)
    (ds : List β) (hnd : ds.Nodup) (ts : List α)
    (hcov : ∀ t ∈ ts, key t ∈ ds) :
    (ds.map (fun d => (ts.filter (fun t => decide (key t = d))).length)).sum = ts.length := by
  induction ts with
  | nil => simp
  | cons t ts ih =>
    have hstep : ∀ d, (List.filter (fun u => decide (key u = d)) (t :: ts)).length
        = (if key t = d then 1 else 0) + (ts.filter (fun u => decide (key u = d))).length := by
      intro d
      by_cases h : key t = d
      · simp [List.filter_cons, h, Nat.add_comm]
      · simp [List.filter_cons, h]
    calc (ds.map (fun d => (List.filter (fun u => decide (key u = d)) (t :: ts)).length)).sum
        = (ds.map (fun d => (if key t = d then 1 else 0)
            + (ts.filter (fun u => decide (key u = d))).length)).sum := by
          exact congrArg List.sum (List.map_congr_left (fun d _ => hstep d))
      _ = (ds.map (fun d => if key t = d then 1 else 0)).sum
            + (ds.map (fun d => (ts.filter (fun u => decide (key u = d))).length)).sum :=
          sum_map_add_nat ds _ _
      _ = 1 + ts.length := by
          rw [sum_ite_mem_one ds (key t) hnd (hcov t (by simp)),
            ih (fun u hu => hcov u (by simp [hu]))]
      _ = (t :: ts).length := by simp [Nat.add_comm]

/-! ### Pipeline characterization lemmas -/

theorem mem_allDepts (d : Department) : d ∈ allDepts := by
  cases d <;> decide

theorem allDepts_nodup : allDepts.Nodup := by decide

theorem foldl_updateDeptMap (ts : List Task) (init : List (Department × List Task)) :
    ts.foldl updateDeptMap init
      = init.map (fun p => (p.1, p.2 ++ ts.filter (fun t => decide (t.department = p.1)))) := by
  induction ts generalizing init with
  | nil =>
    simp [List.filter]
  | cons t ts ih =>
    rw [List.foldl_cons, ih]
    unfold updateDeptMap
    rw [List.map_map]
    apply List.map_congr_left
    intro p _
    obtain ⟨pd, pts⟩ := p
    by_cases h : pd = t.department
    · subst h
      simp [Function.comp, List.filter_cons, List.append_assoc]
    · have h2 : ¬t.department = pd := fun he => h he.symm
      simp [Function.comp, List.filter_cons, h, h2]

theorem processData_pos (clock : Clock) (headers : List String) (rows : List RawRecord)
    (h : rows.length ≠ 0) :
    processData clock headers rows =
      { tasks := rows.enum.map (fun p =>
          normalizeRow clock (resolveDescKey headers) (resolveStatusKey headers)
            (resolveDateKey headers) p.1 p.2)
        departmentStats :=
          ((allDepts.map (fun d => (d,
              (rows.enum.map (fun p => normalizeRow clock (resolveDescKey headers)
                (resolveStatusKey headers) (resolveDateKey headers) p.1 p.2)).filter
                  (fun t => decide (t.department = d))))).filterMap (fun p =>
            if p.2.length = 0 ∧ p.1 = Department.general then none
            else some (statsOf clock p.1 p.2))).filter (fun d => 0 < d.totalTasks)
        overallProgress :=
          (if (rows.enum.map (fun p => normalizeRow clock (resolveDescKey headers)
              (resolveStatusKey headers) (resolveDateKey headers) p.1 p.2)).length = 0 then 0
           else jsRound ((((rows.enum.map (fun p => normalizeRow clock (resolveDescKey headers)
              (resolveStatusKey headers) (resolveDateKey headers) p.1 p.2)).filter
                (fun t => decide (t.status = Status.Done))).length : ℚ)
              / (((rows.enum.map (fun p => normalizeRow clock (resolveDescKey headers)
                (resolveStatusKey headers) (resolveDateKey headers) p.1 p.2)).length : ℚ)) * 100)) } := by
  simp only [processData]
  rw [if_neg h, foldl_updateDeptMap, List.map_map]
  rfl

theorem processData_tasks_get (clock : Clock) (headers : List String) (rows : List RawRecord)
    (i : Nat) (row : RawRecord) (hrow : rows[i]? = some row) :
    (processData clock headers rows).tasks[i]?
      = some (normalizeRow clock (resolveDescKey headers) (resolveStatusKey headers)
          (resolveDateKey headers) i row) := by
  have hlen : rows.length ≠ 0 := by
    intro h0
    rw [List.length_eq_zero.mp h0] at hrow
    simp at hrow
  rw [processData_pos clock headers rows hlen]
  simp only [List.getElem?_map, List.getElem?_enum, hrow]
  rfl

theorem mem_departmentStats (clock : Clock) (headers : List String) (rows : List RawRecord)
    (s : DepartmentStats)
    (hs : s ∈ (processData clock headers rows).departmentStats) :
    ∃ d : Department,
      s = statsOf clock d ((processData clock headers rows).tasks.filter
            (fun t => decide (t.department = d)))
      ∧ s.name = d := by
  by_cases hlen : rows.length = 0
  · exfalso
    unfold processData at hs
    rw [if_pos hlen] at hs
    simp at hs
  · rw [processData_pos clock headers rows hlen] at hs
    have hs2 := List.mem_of_mem_filter hs
    obtain ⟨p, hp, hps⟩ := List.mem_filterMap.mp hs2
    obtain ⟨d, _, hd⟩ := List.mem_map.mp hp
    subst hd
    split at hps
    · exact absurd hps (by simp)
    · have hsd : s = statsOf clock d _ := (Option.some.injEq _ _ ▸ hps).symm
      refine ⟨d, ?_, ?_⟩
      · rw [hsd, processData_pos clock headers rows hlen]
      · rw [hsd]; rfl

theorem statsOf_name (clock : Clock) (d : Department) (ts : List Task) :
    (statsOf clock d ts).name = d := rfl

/-! ### String facts about the column matcher -/

theorem data_ne_nil_of_ne_empty {s : String} (h : s ≠ "") : s.data ≠ [] := by
  intro hd
  apply h
  cases s with
  | mk l =>
    simp only [String.data] at hd
    rw [hd]

theorem jsIncludes_empty_hay {needle : String} (h : needle ≠ "") :
    jsIncludes "" needle = false := by
  have hd := data_ne_nil_of_ne_empty h
  show containsSubAux needle.data [] = false
  cases hnd : needle.data with
  | nil => exact absurd hnd hd
  | cons a l => simp [containsSubAux, hnd]

theorem findColumnKey_ne_empty (hs cands : List String) (k : String)
    (hfind : findColumnKey hs cands = some k)
    (hc : ∀ c ∈ cands, normalize c ≠ "") : k ≠ "" := by
  unfold findColumnKey at hfind
  by_cases he : hs.isEmpty
  · rw [if_pos he] at hfind
    exact absurd hfind (by simp)
  · rw [if_neg he] at hfind
    obtain ⟨c, hcmem, hfc⟩ := List.exists_of_findSome?_eq_some hfind
    have hmatch0 := List.find?_some hfc
    have hmatch : headerMatches k c = true := hmatch0
    intro hkE
    subst hkE
    unfold headerMatches at hmatch
    have h1 : normalize "" = "" := rfl
    rw [h1] at hmatch
    have h2 : ("" == normalize c) = false := beq_eq_false_iff_ne.mpr (hc c hcmem).symm
    have h3 : jsIncludes "" (normalize c) = false := jsIncludes_empty_hay (hc c hcmem)
    rw [h2, h3] at hmatch
    exact absurd hmatch (by simp)

/-! ### Rounding bounds -/

theorem jsRound_div_bounds (c t : Nat) (hct : c ≤ t) (ht : 0 < t) :
    0 ≤ jsRound ((c : ℚ) / (t : ℚ) * 100) ∧ jsRound ((c : ℚ) / (t : ℚ) * 100) ≤ 100 := by
  have htQ : (0 : ℚ) < (t : ℚ) := by exact_mod_cast ht
  have h0 : (0 : ℚ) ≤ (c : ℚ) / (t : ℚ) := div_nonneg (by positivity) htQ.le
  have h1 : (c : ℚ) / (t : ℚ) ≤ 1 := by
    rw [div_le_one htQ]
    exact_mod_cast hct
  constructor
  · unfold jsRound
    apply Int.le_floor.mpr
    push_cast
    nlinarith
  · unfold jsRound
    have hle : (c : ℚ) / (t : ℚ) * 100 + 1 / 2 ≤ (100 : ℚ) + 1 / 2 := by nlinarith
    have h2 := Int.floor_le_floor hle
    have h100 : (⌊(100 : ℚ) + 1 / 2⌋ : ℤ) = 100 := by
      rw [Int.floor_eq_iff] <;> norm_num
    omega

/-! ### Comparator facts for the future-task sort -/

theorem taskLE_trans (a b c : Task) :
    decide (futureKey a ≤ futureKey b) = true →
    decide (futureKey b ≤ futureKey c) = true →
    decide (futureKey a ≤ futureKey c) = true := by
  intro hab hbc
  rw [decide_eq_true_eq] at hab hbc ⊢
  exact le_trans hab hbc

theorem taskLE_total (a b : Task) :
    (decide (futureKey a ≤ futureKey b) || decide (futureKey b ≤ futureKey a)) = true := by
  rcases le_total (futureKey a) (futureKey b) with h | h <;> simp [h]

/-! ### Claim C1 -/

/-- C1, counterexample.  On the spec's scenario row the normalizer assigns
department `Inventory & Stores`, not `Projects & Sales`: the keyword table is
scanned department by department, and `Inventory & Stores` (keyword
`warehouse`) precedes `Projects & Sales` (keyword `tender`) in the declared
order, so the claimed department is wrong at this input. -/
theorem c1_department_counterexample :
    (processData testClock c1Headers [c1Row]).tasks.map Task.department
      = [Department.inventoryStores]
    ∧ ¬ ((processData testClock c1Headers [c1Row]).tasks.map Task.department
          = [Department.projectsSales]) := by
  constructor
  · decide
  · decide

/-- C1, amended.  For the input row with Task `Tender for new warehouse
racks`, empty Status, and EDD `2024-02-30`, the normalizer produces a Task
with status `Pending` (the default for an empty status cell), `parsedDate`
absent (2024-02-30 is an invalid calendar date), `rawDateText` equal to
`2024-02-30`, and department `Inventory & Stores`, because the keyword table
is scanned in declared department order and `Inventory & Stores` (whose
keyword `warehouse` occurs in the description) is reached before
`Projects & Sales` (keyword `tender`). -/
theorem c1_scenario_amended :
    (processData testClock c1Headers [c1Row]).tasks.map
        (fun t => (t.status, t.parsedDate, t.date, t.department))
      = [(Status.Pending, none, "2024-02-30", Department.inventoryStores)] := by
  decide

/-! ### Claim C8 -/

/-- C8, counterexample.  A row with exactly 24 values (not more than 24)
whose resolved date cell is empty still receives the 24th positional value
as its date text: the source checks `rowValues.length > 23`, so the fallback
fires already at 24 values, contradicting the claim's `more than 24`
threshold. -/
theorem c8_positional_counterexample :
    c8Row.length = 24
    ∧ ¬ (c8Row.length > 24)
    ∧ resolveDateKey c1Headers = some "EDD"
    ∧ rowGet c8Row "EDD" = some ""
    ∧ (processData testClock c1Headers [c8Row]).tasks.map Task.date = ["X"]
    ∧ "X" ≠ "" := by
  decide

/-- C8, amended.  For every raw record whose resolved date cell is empty, the
normalizer falls back to the value at the 24th positional slot of the row
(by value order, not by header name) exactly when the row has more than 23
values, i.e. at least 24; otherwise the date text stays empty. -/
theorem c8_positional_fallback (clock : Clock) (descKey : Option String)
    (statusKey : String) (dateKey : Option String) (idx : Nat) (row : RawRecord)
    (hEmpty : jsOrStr (rowGet row (dateKey.getD "undefined")) "" = "") :
    (23 < row.length →
      (normalizeRow clock descKey statusKey dateKey idx row).date
        = (row.map Prod.snd).getD 23 "")
    ∧ (¬ 23 < row.length →
      (normalizeRow clock descKey statusKey dateKey idx row).date = "") := by
  constructor
  · intro hlen
    show (if jsOrStr (rowGet row (dateKey.getD "undefined")) "" = ""
            ∧ 23 < (row.map Prod.snd).length
          then (row.map Prod.snd).getD 23 (jsOrStr (rowGet row (dateKey.getD "undefined")) "")
          else jsOrStr (rowGet row (dateKey.getD "undefined")) "") = (row.map Prod.snd).getD 23 ""
    rw [if_pos ⟨hEmpty, by simpa using hlen⟩, hEmpty]
  · intro hlen
    show (if jsOrStr (rowGet row (dateKey.getD "undefined")) "" = ""
            ∧ 23 < (row.map Prod.snd).length
          then (row.map Prod.snd).getD 23 (jsOrStr (rowGet row (dateKey.getD "undefined")) "")
          else jsOrStr (rowGet row (dateKey.getD "undefined")) "") = ""
    rw [if_neg (fun hc => hlen (by simpa using hc.2))]
    exact hEmpty

/-- C8, witness: the amended fallback evaluated on the concrete 24-value row. -/
theorem c8_positional_fallback_witness :
    (normalizeRow testClock (some "Task") "Status" (some "EDD") 0 c8Row).date
      = (c8Row.map Prod.snd).getD 23 "" :=
  (c8_positional_fallback testClock (some "Task") "Status" (some "EDD") 0 c8Row
    (by decide)).1 (by decide)

/-! ### Claim C9 -/

/-- C9, counterexample.  Reordering headers can change which column is
selected even though a synonym match exists in both orders: with headers
`Task Status` and `Status`, the first candidate to match is `Status`, and
both headers match it, so whichever comes first is chosen. -/
theorem c9_permutation_counterexample :
    (["Task Status", "Status"] : List String).Perm ["Status", "Task Status"]
    ∧ (findColumnKey ["Task Status", "Status"] descCandidates).isSome = true
    ∧ (findColumnKey ["Status", "Task Status"] descCandidates).isSome = true
    ∧ (findColumnKey ["Task Status", "Status"] statusCandidates).isSome = true
    ∧ (findColumnKey ["Status", "Task Status"] statusCandidates).isSome = true
    ∧ resolveStatusKey ["Task Status", "Status"] = "Task Status"
    ∧ resolveStatusKey ["Status", "Task Status"] = "Status"
    ∧ "Task Status" ≠ "Status" := by
  refine ⟨?_, by decide, by decide, by decide, by decide, by decide, by decide, by decide⟩
  exact List.Perm.swap "Status" "Task Status" []

/-- C9, amended.  Permuting the headers does not change which column is
selected for the description or the status role, provided no candidate
synonym is matched by two distinct headers; and when a synonym match exists
the resolved keys themselves agree. -/
theorem c9_resolution_perm_invariant (hs1 hs2 : List String)
    (hperm : hs1.Perm hs2)
    (huniq : ∀ c ∈ descCandidates ++ statusCandidates,
      ∀ a ∈ hs1, ∀ b ∈ hs1, headerMatches a c = true → headerMatches b c = true → a = b) :
    findColumnKey hs1 descCandidates = findColumnKey hs2 descCandidates
    ∧ findColumnKey hs1 statusCandidates = findColumnKey hs2 statusCandidates
    ∧ ((findColumnKey hs1 descCandidates).isSome = true →
        resolveDescKey hs1 = resolveDescKey hs2)
    ∧ ((findColumnKey hs1 statusCandidates).isSome = true →
        resolveStatusKey hs1 = resolveStatusKey hs2) := by
  have key : ∀ cands : List String,
      (∀ c ∈ cands, ∀ a ∈ hs1, ∀ b ∈ hs1,
        headerMatches a c = true → headerMatches b c = true → a = b) →
      findColumnKey hs1 cands = findColumnKey hs2 cands := by
    intro cands hu
    unfold findColumnKey
    have hemp : hs1.isEmpty = hs2.isEmpty := by
      have hl := hperm.length_eq
      cases hs1 <;> cases hs2 <;> simp_all
    rw [hemp]
    by_cases he : hs2.isEmpty
    · rw [if_pos he, if_pos he]
    · rw [if_neg he, if_neg he]
      apply findSome?_congr
      intro c hc
      exact find?_congr_of_perm (fun h => headerMatches h c) hs1 hs2 hperm
        (fun a ha b hb hpa hpb => hu c hc a ha b hb hpa hpb)
  have hdesc := key descCandidates
    (fun c hc => huniq c (List.mem_append_left _ hc))
  have hstat := key statusCandidates
    (fun c hc => huniq c (List.mem_append_right _ hc))
  refine ⟨hdesc, hstat, ?_, ?_⟩
  · intro hsome
    obtain ⟨k, hk⟩ := Option.isSome_iff_exists.mp hsome
    have hkne : k ≠ "" := findColumnKey_ne_empty hs1 descCandidates k hk (by decide)
    unfold resolveDescKey
    rw [hk, ← hdesc, hk]
    simp [jsOrOpt, hkne]
  · intro hsome
    obtain ⟨k, hk⟩ := Option.isSome_iff_exists.mp hsome
    have hkne : k ≠ "" := findColumnKey_ne_empty hs1 statusCandidates k hk (by decide)
    unfold resolveStatusKey
    rw [hk, ← hstat, hk]

/-- C9, witness: the amended invariance applied to the two-header swap
`Task`/`Status`, where each candidate is matched by at most one header. -/
theorem c9_resolution_perm_invariant_witness :
    findColumnKey ["Task", "Status"] descCandidates
      = findColumnKey ["Status", "Task"] descCandidates
    ∧ resolveStatusKey ["Task", "Status"] = resolveStatusKey ["Status", "Task"] := by
  have h := c9_resolution_perm_invariant ["Task", "Status"] ["Status", "Task"]
    (List.Perm.swap "Status" "Task" []) (by decide)
  exact ⟨h.1, h.2.2.2 (by decide)⟩

/-! ### Claim C2 -/

/-- C2, confirmed.  For every raw record, the normalizer takes the resolved
status column's value when truthy, otherwise the default `Pending`; the
resulting Task's status is `Done` if and only if that value contains `done`
or `completed` as a case-insensitive substring, and `Pending` in every other
case. -/
theorem c2_status_classification (clock : Clock) (headers : List String)
    (rows : List RawRecord) (i : Nat) (row : RawRecord)
    (hrow : rows[i]? = some row) :
    ∃ t, (processData clock headers rows).tasks[i]? = some t
      ∧ (t.status = Status.Done ↔
          (jsIncludes (jsToLower (jsOrStr (rowGet row (resolveStatusKey headers)) "Pending")) "done"
            || jsIncludes (jsToLower (jsOrStr (rowGet row (resolveStatusKey headers)) "Pending")) "completed")
            = true)
      ∧ ((jsIncludes (jsToLower (jsOrStr (rowGet row (resolveStatusKey headers)) "Pending")) "done"
            || jsIncludes (jsToLower (jsOrStr (rowGet row (resolveStatusKey headers)) "Pending")) "completed")
            = false → t.status = Status.Pending) := by
  refine ⟨normalizeRow clock (resolveDescKey headers) (resolveStatusKey headers)
      (resolveDateKey headers) i row,
    processData_tasks_get clock headers rows i row hrow, ?_, ?_⟩
  · have hstat : (normalizeRow clock (resolveDescKey headers) (resolveStatusKey headers)
        (resolveDateKey headers) i row).status
        = (if (jsIncludes (jsToLower (jsOrStr (rowGet row (resolveStatusKey headers)) "Pending")) "done"
              || jsIncludes (jsToLower (jsOrStr (rowGet row (resolveStatusKey headers)) "Pending")) "completed")
           then Status.Done else Status.Pending) := rfl
    rw [hstat]
    cases hb : (jsIncludes (jsToLower (jsOrStr (rowGet row (resolveStatusKey headers)) "Pending")) "done"
        || jsIncludes (jsToLower (jsOrStr (rowGet row (resolveStatusKey headers)) "Pending")) "completed") <;>
      simp
  · intro hfalse
    have hstat : (normalizeRow clock (resolveDescKey headers) (resolveStatusKey headers)
        (resolveDateKey headers) i row).status
        = (if (jsIncludes (jsToLower (jsOrStr (rowGet row (resolveStatusKey headers)) "Pending")) "done"
              || jsIncludes (jsToLower (jsOrStr (rowGet row (resolveStatusKey headers)) "Pending")) "completed")
           then Status.Done else Status.Pending) := rfl
    rw [hstat, hfalse]
    rfl

/-- C2, witness: the first payroll row (status text `Done`) classifies to
`Done`. -/
theorem c2_status_classification_witness :
    (processData testClock c1Headers hrRows).tasks[0]?.map Task.status = some Status.Done := by
  obtain ⟨t, ht, hiff, _⟩ := c2_status_classification testClock c1Headers hrRows 0
    [("Task", "payroll a"), ("Status", "Done"), ("EDD", "10-Oct-26")] (by decide)
  rw [ht, Option.map_some']
  exact congrArg some (hiff.mpr (by decide))

/-! ### Claim C3 -/

/-- C3, confirmed.  Date-column resolution priority: a (necessarily
nonempty) header at index 23 whose normalized form contains `edd` is used
unconditionally; otherwise the ordered synonym search runs and its result is
used when it finds a key; if it finds nothing, a truthy (nonempty) header at
index 23 is the last resort, and with no 24th header the date key is
absent. -/
theorem c3_dateKey_priority (headers : List String) :
    (∀ h, headers[23]? = some h → jsIncludes (normalize h) "edd" = true →
        resolveDateKey headers = some h)
    ∧ ((∀ h, headers[23]? = some h → jsIncludes (normalize h) "edd" = false) →
        (∀ k, findColumnKey headers dateCandidates = some k → resolveDateKey headers = some k)
        ∧ (findColumnKey headers dateCandidates = none →
            (∀ h, headers[23]? = some h → h ≠ "" → resolveDateKey headers = some h)
            ∧ (headers[23]? = none → resolveDateKey headers = none))) := by
  constructor
  · intro h h23 hedd
    have hne : h ≠ "" := by
      intro he
      subst he
      exact absurd hedd (by decide)
    simp [resolveDateKey, h23, hedd, hne, jsFalsyS]
  · intro hnotedd
    constructor
    · intro k hk
      have hkne : k ≠ "" := findColumnKey_ne_empty headers dateCandidates k hk (by decide)
      cases h23 : headers[23]? with
      | none => simp [resolveDateKey, h23, hk, jsFalsyS, hkne]
      | some h => simp [resolveDateKey, h23, hnotedd h h23, hk, jsFalsyS, hkne]
    · intro hnone
      constructor
      · intro h h23 hne
        simp [resolveDateKey, h23, hnotedd h h23, hnone, jsFalsyS, hne]
      · intro h23
        simp [resolveDateKey, h23, hnone, jsFalsyS]

/-- C3, witness: twenty-four headers whose 24th is `EDD` resolve the date
key to that header through the index-23 rule. -/
theorem c3_dateKey_priority_witness : resolveDateKey c3Headers = some "EDD" :=
  (c3_dateKey_priority c3Headers).1 "EDD" (by decide) (by decide)

/-! ### Claim C4 -/

/-- Every format in the source's list fails on empty input. -/
theorem dfnsParse_fmt_empty (clock : Clock) (fmt : String) (hf : fmt ∈ formats) :
    dfnsParse clock fmt "" = none := by
  fin_cases hf <;> rfl

/-- C4, confirmed.  Date parsing tries the fixed ordered format list and
accepts the first valid parse; when all formats fail it falls back to the
general-purpose date interpreter; when that also fails the result is absent;
and each Task records `parsedDate` as exactly the parse of the verbatim text
kept in its `date` field.  Totality of `parseDate` models the guarantee that
no exception is raised. -/
theorem c4_parse_chain (clock : Clock) (s : String) :
    (∀ (i : Nat) (fmt : String) (d : CalDate), formats[i]? = some fmt →
        (∀ (j : Nat) (fmt2 : String), j < i → formats[j]? = some fmt2 →
          dfnsParse clock fmt2 (jsTrim s) = none) →
        dfnsParse clock fmt (jsTrim s) = some d →
        parseDate clock s = some d)
    ∧ ((∀ fmt ∈ formats, dfnsParse clock fmt (jsTrim s) = none) →
        parseDate clock s = jsNewDate (jsTrim s))
    ∧ ((∀ fmt ∈ formats, dfnsParse clock fmt (jsTrim s) = none) →
        jsNewDate (jsTrim s) = none → parseDate clock s = none)
    ∧ (∀ (descKey : Option String) (statusKey : String) (dateKey : Option String)
        (idx : Nat) (row : RawRecord),
        (normalizeRow clock descKey statusKey dateKey idx row).parsedDate
          = parseDate clock (normalizeRow clock descKey statusKey dateKey idx row).date) := by
  have part2 : (∀ fmt ∈ formats, dfnsParse clock fmt (jsTrim s) = none) →
      parseDate clock s = jsNewDate (jsTrim s) := by
    intro hall
    by_cases hs0 : s = ""
    · subst hs0
      rfl
    · by_cases hclean : jsTrim s = ""
      · simp only [parseDate]
        rw [if_neg hs0, if_pos hclean, hclean]
        rfl
      · simp only [parseDate]
        rw [if_neg hs0, if_neg hclean,
          findSome?_eq_none_of_all formats _ (fun fmt hf => hall fmt hf)]
  refine ⟨?_, part2, fun hall hnone => by rw [part2 hall, hnone],
    fun dK sK dtK idx row => rfl⟩
  intro i fmt d hi hprev hfmt
  have hfm : fmt ∈ formats := List.getElem?_mem hi
  by_cases hs0 : s = ""
  · exfalso
    subst hs0
    rw [show jsTrim "" = "" from rfl, dfnsParse_fmt_empty clock fmt hfm] at hfmt
    exact Option.noConfusion hfmt
  · by_cases hclean : jsTrim s = ""
    · exfalso
      rw [hclean, dfnsParse_fmt_empty clock fmt hfm] at hfmt
      exact Option.noConfusion hfmt
    · simp only [parseDate]
      rw [if_neg hs0, if_neg hclean,
        findSome?_eq_of_first formats _ i fmt d hi hprev hfmt]

/-- C4, witness: the first format `d-MMM-yy` already parses `15-Jan-24`, and
the chain returns its result. -/
theorem c4_parse_chain_witness :
    parseDate testClock "15-Jan-24" = some ⟨2024, 1, 15⟩ :=
  (c4_parse_chain testClock "15-Jan-24").1 0 "d-MMM-yy" ⟨2024, 1, 15⟩ (by decide)
    (fun j fmt2 hj _ => absurd hj (Nat.not_lt_zero j)) (by decide)

/-! ### Claim C5 -/

/-- C5, confirmed.  Every department's `overdueCount` is exactly the number
of tasks in that department that are not Done, have a parsed date, and whose
parsed date is strictly before the start of the current day; the predicate
rejects every Done task and every task without a parsed date. -/
theorem c5_overdue_count (clock : Clock) (headers : List String) (rows : List RawRecord) :
    ∀ s ∈ (processData clock headers rows).departmentStats,
      s.overdueCount
        = ((processData clock headers rows).tasks.filter
            (fun t => decide (t.department = s.name) && isOverdueT clock t)).length
      ∧ (∀ t : Task, t.status = Status.Done → isOverdueT clock t = false)
      ∧ (∀ t : Task, t.parsedDate = none → isOverdueT clock t = false) := by
  intro s hs
  obtain ⟨d, hsd, hname⟩ := mem_departmentStats clock headers rows s hs
  refine ⟨?_, ?_, ?_⟩
  · rw [hname, hsd]
    calc (statsOf clock d ((processData clock headers rows).tasks.filter
            (fun t => decide (t.department = d)))).overdueCount
        = (((processData clock headers rows).tasks.filter
            (fun t => decide (t.department = d))).filter (isOverdueT clock)).length := rfl
      _ = ((processData clock headers rows).tasks.filter
            (fun t => isOverdueT clock t && decide (t.department = d))).length := by
          rw [List.filter_filter]
      _ = ((processData clock headers rows).tasks.filter
            (fun t => decide (t.department = d) && isOverdueT clock t)).length := by
          rw [show (fun t => isOverdueT clock t && decide (t.department = d))
              = (fun t => decide (t.department = d) && isOverdueT clock t) from
            funext (fun t => Bool.and_comm _ _)]
  · intro t ht
    simp [isOverdueT, ht]
  · intro t ht
    simp [isOverdueT, ht]

/-- C5, witness: the HR stats entry of the payroll rows counts exactly its
overdue tasks. -/
theorem c5_overdue_count_witness :
    hrStat ∈ (processData testClock c1Headers hrRows).departmentStats
    ∧ hrStat.overdueCount
      = ((processData testClock c1Headers hrRows).tasks.filter
          (fun t => decide (t.department = hrStat.name) && isOverdueT testClock t)).length := by
  have hmem : hrStat ∈ (processData testClock c1Headers hrRows).departmentStats := by
    have he : (processData testClock c1Headers hrRows).departmentStats = [hrStat] := rfl
    rw [he]
    exact List.mem_singleton.mpr rfl
  exact ⟨hmem, (c5_overdue_count testClock c1Headers hrRows hrStat hmem).1⟩

/-! ### Claim C6 -/

/-- Specification of the `nextDeadline` field computed by `statsOf`: absent
exactly when the department has no upcoming task, and otherwise the minimum
parsed date among upcoming tasks. -/
theorem statsOf_nextDeadline_spec (clock : Clock) (d : Department) (bucket : List Task) :
    ((bucket.filter (isUpcoming clock)) = [] → (statsOf clock d bucket).nextDeadline = none)
    ∧ (∀ dl, (statsOf clock d bucket).nextDeadline = some dl →
        (∃ t ∈ bucket, isUpcoming clock t = true ∧ t.parsedDate = some dl)
        ∧ (∀ t ∈ bucket, isUpcoming clock t = true → ∀ d2, t.parsedDate = some d2 →
            msOfDate dl ≤ msOfDate d2))
    ∧ ((bucket.filter (isUpcoming clock)) ≠ [] → (statsOf clock d bucket).nextDeadline ≠ none) := by
  have hperm := List.mergeSort_perm (bucket.filter (isUpcoming clock))
    (fun a b => decide (futureKey a ≤ futureKey b))
  have hsorted := @List.sorted_mergeSort Task
    (fun a b => decide (futureKey a ≤ futureKey b))
    taskLE_trans taskLE_total (bucket.filter (isUpcoming clock))
  have hnd : (statsOf clock d bucket).nextDeadline
      = ((bucket.filter (isUpcoming clock)).mergeSort
          (fun a b => decide (futureKey a ≤ futureKey b))).head?.bind Task.parsedDate := rfl
  refine ⟨?_, ?_, ?_⟩
  · intro hempty
    have hnil : (List.filter (isUpcoming clock) bucket).mergeSort
        (fun a b => decide (futureKey a ≤ futureKey b)) = [] := by
      rw [hempty]
      simp
    rw [hnd, hnil]
    rfl
  · intro dl hdl
    rw [hnd] at hdl
    obtain ⟨t0, hhead, hpd⟩ := Option.bind_eq_some.mp hdl
    obtain ⟨rest, hms⟩ : ∃ rest, (bucket.filter (isUpcoming clock)).mergeSort
        (fun a b => decide (futureKey a ≤ futureKey b)) = t0 :: rest := by
      cases hms : (bucket.filter (isUpcoming clock)).mergeSort
          (fun a b => decide (futureKey a ≤ futureKey b)) with
      | nil => rw [hms] at hhead; exact absurd hhead (by simp)
      | cons a r =>
        rw [hms] at hhead
        simp only [List.head?_cons, Option.some.injEq] at hhead
        exact ⟨r, by rw [hhead]⟩
    have ht0futs : t0 ∈ bucket.filter (isUpcoming clock) :=
      hperm.mem_iff.mp (hms ▸ List.mem_cons_self t0 rest)
    have ht0parts := List.mem_filter.mp ht0futs
    constructor
    · exact ⟨t0, ht0parts.1, ht0parts.2, hpd⟩
    · intro t htmem hup d2 hd2
      have htf : t ∈ bucket.filter (isUpcoming clock) := List.mem_filter.mpr ⟨htmem, hup⟩
      have htsorted := hperm.mem_iff.mpr htf
      rw [hms] at htsorted
      rcases List.mem_cons.mp htsorted with h | h
      · subst h
        rw [hpd] at hd2
        injection hd2 with he
        rw [he]
      · have hle := (List.pairwise_cons.mp (hms ▸ hsorted)).1 t h
        rw [decide_eq_true_eq] at hle
        have h1 : futureKey t0 = msOfDate dl := by unfold futureKey; rw [hpd]; rfl
        have h2 : futureKey t = msOfDate d2 := by unfold futureKey; rw [hd2]; rfl
        rw [h1, h2] at hle
        exact hle
  · intro hne
    rw [hnd]
    cases hms : (bucket.filter (isUpcoming clock)).mergeSort
        (fun a b => decide (futureKey a ≤ futureKey b)) with
    | nil => exact absurd ((hms ▸ hperm).symm.eq_nil) hne
    | cons a r =>
      have haf : a ∈ bucket.filter (isUpcoming clock) :=
        hperm.mem_iff.mp (hms ▸ List.mem_cons_self a r)
      have hup : isUpcoming clock a = true := (List.mem_filter.mp haf).2
      obtain ⟨dd, hdd⟩ : ∃ dd, a.parsedDate = some dd := by
        unfold isUpcoming at hup
        cases hpd : a.parsedDate with
        | none => rw [hpd] at hup; simp at hup
        | some dd => exact ⟨dd, rfl⟩
      simp [hdd]

/-- C6, confirmed.  Every department's `nextDeadline` is the earliest parsed
date among that department's not-Done tasks whose parsed date lies strictly
after the current moment; it is absent exactly when no such task exists. -/
theorem c6_next_deadline (clock : Clock) (headers : List String) (rows : List RawRecord) :
    ∀ s ∈ (processData clock headers rows).departmentStats,
      ((processData clock headers rows).tasks.filter
          (fun t => decide (t.department = s.name) && isUpcoming clock t) = [] →
        s.nextDeadline = none)
      ∧ (∀ dl, s.nextDeadline = some dl →
          (∃ t ∈ (processData clock headers rows).tasks,
              (decide (t.department = s.name) && isUpcoming clock t) = true
              ∧ t.parsedDate = some dl)
          ∧ (∀ t ∈ (processData clock headers rows).tasks,
              (decide (t.department = s.name) && isUpcoming clock t) = true →
              ∀ d2, t.parsedDate = some d2 → msOfDate dl ≤ msOfDate d2))
      ∧ ((processData clock headers rows).tasks.filter
          (fun t => decide (t.department = s.name) && isUpcoming clock t) ≠ [] →
        s.nextDeadline ≠ none) := by
  intro s hs
  obtain ⟨d, hsd, hname⟩ := mem_departmentStats clock headers rows s hs
  have hspec := statsOf_nextDeadline_spec clock d
    ((processData clock headers rows).tasks.filter (fun t => decide (t.department = d)))
  have hfilter : (processData clock headers rows).tasks.filter
      (fun t => decide (t.department = s.name) && isUpcoming clock t)
      = ((processData clock headers rows).tasks.filter
          (fun t => decide (t.department = d))).filter (isUpcoming clock) := by
    rw [hname, List.filter_filter]
    rw [show (fun t => isUpcoming clock t && decide (t.department = d))
        = (fun t => decide (t.department = d) && isUpcoming clock t) from
      funext (fun t => Bool.and_comm _ _)]
  refine ⟨?_, ?_, ?_⟩
  · intro hempty
    rw [hfilter] at hempty
    rw [hsd]
    exact hspec.1 hempty
  · intro dl hdl
    rw [hsd] at hdl
    obtain ⟨hex, hmin⟩ := hspec.2.1 dl hdl
    constructor
    · obtain ⟨t, htb, hup, hpd⟩ := hex
      have hparts := List.mem_filter.mp htb
      refine ⟨t, hparts.1, ?_, hpd⟩
      rw [hname, Bool.and_eq_true]
      exact ⟨hparts.2, hup⟩
    · intro t htmem hcond d2 hd2
      rw [hname, Bool.and_eq_true] at hcond
      exact hmin t (List.mem_filter.mpr ⟨htmem, hcond.1⟩) hcond.2 d2 hd2
  · intro hne
    rw [hfilter] at hne
    rw [hsd]
    exact hspec.2.2 hne

/-- C6, witness: the HR stats entry of the payroll rows has the November
deadline as its next deadline, and it is the minimum among upcoming tasks. -/
theorem c6_next_deadline_witness :
    hrStat.nextDeadline ≠ none := by
  have hmem : hrStat ∈ (processData testClock c1Headers hrRows).departmentStats := by
    have he : (processData testClock c1Headers hrRows).departmentStats = [hrStat] := rfl
    rw [he]
    exact List.mem_singleton.mpr rfl
  exact (c6_next_deadline testClock c1Headers hrRows hrStat hmem).2.2 (by decide)

/-! ### Claim C7 -/

/-- C7, confirmed.  Every department's `percentage` and the overall
`overallProgress` are integers in the interval from 0 to 100, computed as
`round(completed / total * 100)` on exact rationals, and a zero task count
yields 0 rather than an error or a non-number. -/
theorem c7_percentage_bounds (clock : Clock) (headers : List String) (rows : List RawRecord) :
    (∀ s ∈ (processData clock headers rows).departmentStats,
        0 ≤ s.percentage ∧ s.percentage ≤ 100
        ∧ s.percentage = (if s.totalTasks = 0 then 0
            else jsRound ((s.completedTasks : ℚ) / (s.totalTasks : ℚ) * 100)))
    ∧ (0 ≤ (processData clock headers rows).overallProgress
        ∧ (processData clock headers rows).overallProgress ≤ 100
        ∧ (processData clock headers rows).overallProgress
          = (if (processData clock headers rows).tasks.length = 0 then 0
             else jsRound ((((processData clock headers rows).tasks.filter
                  (fun t => decide (t.status = Status.Done))).length : ℚ)
                / ((processData clock headers rows).tasks.length : ℚ) * 100))) := by
  constructor
  · intro s hs
    obtain ⟨d, hsd, _⟩ := mem_departmentStats clock headers rows s hs
    subst hsd
    have hpct : (statsOf clock d ((processData clock headers rows).tasks.filter
        (fun t => decide (t.department = d)))).percentage
        = (if ((processData clock headers rows).tasks.filter
              (fun t => decide (t.department = d))).length = 0 then 0
           else jsRound (((((processData clock headers rows).tasks.filter
                (fun t => decide (t.department = d))).filter
                  (fun t => decide (t.status = Status.Done))).length : ℚ)
              / (((processData clock headers rows).tasks.filter
                  (fun t => decide (t.department = d))).length : ℚ) * 100)) := rfl
    refine ⟨?_, ?_, rfl⟩ <;> rw [hpct] <;> by_cases h0 : ((processData clock headers rows).tasks.filter
        (fun t => decide (t.department = d))).length = 0
    · rw [if_pos h0]
    · rw [if_neg h0]
      exact (jsRound_div_bounds _ _ (List.length_filter_le _ _) (Nat.pos_of_ne_zero h0)).1
    · rw [if_pos h0]
      norm_num
    · rw [if_neg h0]
      exact (jsRound_div_bounds _ _ (List.length_filter_le _ _) (Nat.pos_of_ne_zero h0)).2
  · by_cases hlen : rows.length = 0
    · have h0 : processData clock headers rows = ⟨[], [], 0⟩ := by
        simp only [processData]
        rw [if_pos hlen]
      rw [h0]
      norm_num
    · rw [processData_pos clock headers rows hlen]
      refine ⟨?_, ?_, rfl⟩ <;>
        by_cases h0 : (rows.enum.map (fun p => normalizeRow clock (resolveDescKey headers)
            (resolveStatusKey headers) (resolveDateKey headers) p.1 p.2)).length = 0
      · rw [if_pos h0]
      · rw [if_neg h0]
        exact (jsRound_div_bounds _ _ (List.length_filter_le _ _) (Nat.pos_of_ne_zero h0)).1
      · rw [if_pos h0]
        norm_num
      · rw [if_neg h0]
        exact (jsRound_div_bounds _ _ (List.length_filter_le _ _) (Nat.pos_of_ne_zero h0)).2

/-- C7, witness: the bounds applied to the concrete Inventory & Stores entry
of the scenario run, and to the run's overall progress. -/
theorem c7_percentage_bounds_witness :
    (0 ≤ invStat.percentage ∧ invStat.percentage ≤ 100)
    ∧ (0 ≤ (processData testClock c1Headers [c1Row]).overallProgress
        ∧ (processData testClock c1Headers [c1Row]).overallProgress ≤ 100) := by
  have hmem : invStat ∈ (processData testClock c1Headers [c1Row]).departmentStats := by
    have he : (processData testClock c1Headers [c1Row]).departmentStats = [invStat] := rfl
    rw [he]
    exact List.mem_singleton.mpr rfl
  have h := c7_percentage_bounds testClock c1Headers [c1Row]
  have h1 := h.1 invStat hmem
  exact ⟨⟨h1.1, h1.2.1⟩, h.2.1, h.2.2.1⟩

/-! ### Claim C10 -/

/-- Summing the published per-department counters over the statistics list
equals summing the group sizes over all department entries: entries skipped
by the General-empty rule or the positive-count filter contribute zero. -/
theorem sums_over_entries (clock : Clock) (entries : List (Department × List Task)) :
    ((((entries.filterMap (fun p =>
          if p.2.length = 0 ∧ p.1 = Department.general then none
          else some (statsOf clock p.1 p.2))).filter
          (fun s => 0 < s.totalTasks)).map DepartmentStats.totalTasks).sum
        = (entries.map (fun p => p.2.length)).sum)
    ∧ ((((entries.filterMap (fun p =>
          if p.2.length = 0 ∧ p.1 = Department.general then none
          else some (statsOf clock p.1 p.2))).filter
          (fun s => 0 < s.totalTasks)).map DepartmentStats.completedTasks).sum
        = (entries.map (fun p =>
            (p.2.filter (fun t => decide (t.status = Status.Done))).length)).sum) := by
  induction entries with
  | nil => exact ⟨rfl, rfl⟩
  | cons p ps ih =>
    by_cases hskip : p.2.length = 0 ∧ p.1 = Department.general
    · have hnil : p.2 = [] := List.length_eq_zero.mp hskip.1
      simp only [List.filterMap_cons, if_pos hskip, List.map_cons, List.sum_cons]
      constructor
      · rw [ih.1, hskip.1]
        simp
      · rw [ih.2, hnil]
        simp
    · simp only [List.filterMap_cons, if_neg hskip, List.map_cons, List.sum_cons]
      have ht : (statsOf clock p.1 p.2).totalTasks = p.2.length := rfl
      have hc : (statsOf clock p.1 p.2).completedTasks
          = (p.2.filter (fun t => decide (t.status = Status.Done))).length := rfl
      by_cases hpos : 0 < (statsOf clock p.1 p.2).totalTasks
      · rw [List.filter_cons_of_pos (by rw [decide_eq_true_eq]; exact hpos)]
        simp only [List.map_cons, List.sum_cons]
        rw [ih.1, ih.2, ht, hc]
        exact ⟨rfl, rfl⟩
      · have h0 : p.2.length = 0 := by
          rw [← ht]
          exact Nat.eq_zero_of_not_pos hpos
        have hnil : p.2 = [] := List.length_eq_zero.mp h0
        rw [List.filter_cons_of_neg (by simpa using hpos)]
        constructor
        · rw [ih.1, h0]
          simp
        · rw [ih.2, hnil]
          simp

/-- C10, confirmed.  The published department statistics partition the task
list: totals sum to the number of tasks and completed counts sum to the
number of Done tasks. -/
theorem c10_stats_partition (clock : Clock) (headers : List String) (rows : List RawRecord) :
    ((processData clock headers rows).departmentStats.map DepartmentStats.totalTasks).sum
      = (processData clock headers rows).tasks.length
    ∧ ((processData clock headers rows).departmentStats.map DepartmentStats.completedTasks).sum
      = ((processData clock headers rows).tasks.filter
          (fun t => decide (t.status = Status.Done))).length := by
  by_cases hlen : rows.length = 0
  · have h0 : processData clock headers rows = ⟨[], [], 0⟩ := by
      simp only [processData]
      rw [if_pos hlen]
    rw [h0]
    exact ⟨rfl, rfl⟩
  · rw [processData_pos clock headers rows hlen]
    have hsums := sums_over_entries clock
      (allDepts.map (fun d => (d, (rows.enum.map (fun p => normalizeRow clock
        (resolveDescKey headers) (resolveStatusKey headers) (resolveDateKey headers)
        p.1 p.2)).filter (fun t => decide (t.department = d)))))
    rw [List.map_map, List.map_map] at hsums
    constructor
    · rw [hsums.1]
      have := sum_length_filter_eq Task.department allDepts allDepts_nodup
        (rows.enum.map (fun p => normalizeRow clock (resolveDescKey headers)
          (resolveStatusKey headers) (resolveDateKey headers) p.1 p.2))
        (fun t _ => mem_allDepts t.department)
      rw [← this]
      rfl
    · rw [hsums.2]
      have hswap : ∀ d : Department,
          (((rows.enum.map (fun p => normalizeRow clock (resolveDescKey headers)
              (resolveStatusKey headers) (resolveDateKey headers) p.1 p.2)).filter
              (fun t => decide (t.department = d))).filter
              (fun t => decide (t.status = Status.Done)))
          = (((rows.enum.map (fun p => normalizeRow clock (resolveDescKey headers)
              (resolveStatusKey headers) (resolveDateKey headers) p.1 p.2)).filter
              (fun t => decide (t.status = Status.Done))).filter
              (fun t => decide (t.department = d))) := by
        intro d
        rw [List.filter_filter, List.filter_filter]
        rw [show (fun (t : Task) => decide (t.status = Status.Done) && decide (t.department = d))
            = (fun (t : Task) => decide (t.department = d) && decide (t.status = Status.Done)) from
          funext (fun t => Bool.and_comm _ _)]
      have := sum_length_filter_eq Task.department allDepts allDepts_nodup
        ((rows.enum.map (fun p => normalizeRow clock (resolveDescKey headers)
          (resolveStatusKey headers) (resolveDateKey headers) p.1 p.2)).filter
          (fun t => decide (t.status = Status.Done)))
        (fun t _ => mem_allDepts t.department)
      rw [← this]
      apply congrArg List.sum
      apply List.map_congr_left
      intro d _
      simp only [Function.comp_apply]
      rw [hswap d]

/-- C10, witness: the partition equalities evaluated on the payroll run. -/
theorem c10_stats_partition_witness :
    ((processData testClock c1Headers hrRows).departmentStats.map
        DepartmentStats.totalTasks).sum = (processData testClock c1Headers hrRows).tasks.length :=
  (c10_stats_partition testClock c1Headers hrRows).1

end ERP
